import Mathlib

/-!
Verification of the metrics module `pyrec/accuracy.py` (RMSE, MAE, FCP).

Ratings are embedded as rationals, user and item identifiers as naturals.
The Python functions raise `ValueError`; here they return `Except String`.
The optional `output` printing flag is not modelled (it only prints).
-/

namespace Surprise

/-- A prediction record `(uid, iid, true_r, est, details)`; the `details`
payload is opaque and unused by the metrics. -/
structure Prediction where
  uid : ℕ
  iid : ℕ
  true_r : ℚ
  est : ℚ
  details : Unit
deriving DecidableEq

/-- `statistics.mean` on a list of numbers: sum divided by length. -/
def mean (l : List ℚ) : ℚ := l.sum / l.length

/-- The `ValueError` message raised on an empty prediction list. -/
def emptyMsg : String := "prediction list is empty"

/-- The `ValueError` message raised by `fcp` when `nc + nd` is zero. -/
def fcpDegenerateMsg : String :=
  "cannot compute fcp on this list of prediction. Does every user have at least two predictions?"

/-- The mean squared error computed inside `rmse`:
`mean((true_r - est)**2 for (_, _, true_r, est, _) in predictions)`. -/
def mseVal (predictions : List Prediction) : ℚ :=
  mean (predictions.map (fun p => (p.true_r - p.est) ^ 2))

/-- `rmse(predictions)`: the empty-list guard, then `sqrt` of the mean
squared error. -/
noncomputable def rmse (predictions : List Prediction) : Except String ℝ :=
  if predictions.isEmpty then .error emptyMsg
  else .ok (Real.sqrt (mseVal predictions))

/-- `mae(predictions)`: the empty-list guard, then
`mean(abs(true_r - est) for (_, _, true_r, est, _) in predictions)`. -/
def mae (predictions : List Prediction) : Except String ℚ :=
  if predictions.isEmpty then .error emptyMsg
  else .ok (mean (predictions.map (fun p => |p.true_r - p.est|)))

/-- One step of `predictions_u[u0].append((r0, est))` on a `defaultdict(list)`,
represented as an association list in key-insertion order: append to the
existing entry for `u`, or add a new entry at the end. -/
def addPred (g : List (ℕ × List (ℚ × ℚ))) (u : ℕ) (x : ℚ × ℚ) :
    List (ℕ × List (ℚ × ℚ)) :=
  match g with
  | [] => [(u, [x])]
  | (v, ps) :: rest =>
    if v = u then (v, ps ++ [x]) :: rest else (v, ps) :: addPred rest u x

/-- The first loop of `fcp`: group the `(true_r, est)` pairs by user id,
in insertion order, as the Python `defaultdict(list)` does. -/
def groupByUser (predictions : List Prediction) : List (ℕ × List (ℚ × ℚ)) :=
  predictions.foldl (fun g p => addPred g p.uid (p.true_r, p.est)) []

/-- The inner double loop of `fcp` for one user's `(r0, est)` list: the number
of ordered pairs (self-pairs included) with `esti > estj and r0i > r0j`. -/
def concCount (preds : List (ℚ × ℚ)) : ℕ :=
  preds.foldl (fun c pi =>
    preds.foldl (fun c' pj => if pi.2 > pj.2 ∧ pi.1 > pj.1 then c' + 1 else c') c) 0

/-- The inner double loop of `fcp` for one user's `(r0, est)` list: the number
of ordered pairs (self-pairs included) with `esti >= estj and r0i < r0j`. -/
def discCount (preds : List (ℚ × ℚ)) : ℕ :=
  preds.foldl (fun c pi =>
    preds.foldl (fun c' pj => if pi.2 ≥ pj.2 ∧ pi.1 < pj.1 then c' + 1 else c') c) 0

/-- `nc_u.values()`: the per-user concordant counts of the users whose counter
was incremented at least once (a `defaultdict(int)` only holds touched keys). -/
def ncValues (predictions : List Prediction) : List ℕ :=
  ((groupByUser predictions).map (fun g => concCount g.2)).filter
    (fun n => decide (n ≠ 0))

/-- `nd_u.values()`: the per-user discordant counts of the users whose counter
was incremented at least once. -/
def ndValues (predictions : List Prediction) : List ℕ :=
  ((groupByUser predictions).map (fun g => discCount g.2)).filter
    (fun n => decide (n ≠ 0))

/-- `mean(vals) if vals else 0`, with the counts cast to rationals. -/
def meanOrZero (vals : List ℕ) : ℚ :=
  if vals.isEmpty then 0 else mean (vals.map (Nat.cast : ℕ → ℚ))

/-- `nc = mean(nc_u.values()) if nc_u else 0`. -/
def ncVal (predictions : List Prediction) : ℚ := meanOrZero (ncValues predictions)

/-- `nd = mean(nd_u.values()) if nd_u else 0`. -/
def ndVal (predictions : List Prediction) : ℚ := meanOrZero (ndValues predictions)

/-- `fcp(predictions)`: empty guard, per-user pair counts, the two means, and
`nc / (nc + nd)`; the Python `ZeroDivisionError` handler corresponds to the
explicit `nc + nd = 0` test. -/
def fcp (predictions : List Prediction) : Except String ℚ :=
  if predictions.isEmpty then .error emptyMsg
  else
    let nc := ncVal predictions
    let nd := ndVal predictions
    if nc + nd = 0 then .error fcpDegenerateMsg
    else .ok (nc / (nc + nd))

/-- The distinct user ids present in the input. -/
def userIds (predictions : List Prediction) : List ℕ :=
  (predictions.map (fun p => p.uid)).dedup

/-- The `(true_r, est)` pairs of user `u`, in input order. -/
def predsOfUser (predictions : List Prediction) (u : ℕ) : List (ℚ × ℚ) :=
  (predictions.filter (fun p => decide (p.uid = u))).map (fun p => (p.true_r, p.est))

/-- Following the claim's words, not the source: the arithmetic mean of the
concordant counts of ALL users present in the input, zero-count users
contributing zero terms. -/
def specNcAllUsers (predictions : List Prediction) : ℚ :=
  if (userIds predictions).isEmpty then 0
  else mean ((userIds predictions).map
    (fun u => (Nat.cast (concCount (predsOfUser predictions u)) : ℚ)))

/-- Following the claim's words, not the source: the arithmetic mean of the
discordant counts of ALL users present in the input. -/
def specNdAllUsers (predictions : List Prediction) : ℚ :=
  if (userIds predictions).isEmpty then 0
  else mean ((userIds predictions).map
    (fun u => (Nat.cast (discCount (predsOfUser predictions u)) : ℚ)))

/-- The mean of the concordant counts over the users having at least one
concordant pair (zero if there is no such user), stated via `userIds` and
`predsOfUser` rather than via the association-list fold of `fcp`. -/
def ncPos (predictions : List Prediction) : ℚ :=
  meanOrZero (((userIds predictions).map
    (fun u => concCount (predsOfUser predictions u))).filter (fun n => decide (n ≠ 0)))

/-- The mean of the discordant counts over the users having at least one
discordant pair (zero if there is no such user). -/
def ndPos (predictions : List Prediction) : ℚ :=
  meanOrZero (((userIds predictions).map
    (fun u => discCount (predsOfUser predictions u))).filter (fun n => decide (n ≠ 0)))

/-! ### Counting lemmas: the nested loops as `countP`-sums -/

/-- The inner counting loop is a `countP` offset by the accumulator. -/
theorem foldl_ite_count {α : Type} (p : α → Prop) [DecidablePred p] :
    ∀ (l : List α) (c : ℕ),
      l.foldl (fun c' x => if p x then c' + 1 else c') c
        = c + l.countP (fun x => decide (p x)) := by
  intro l
  induction l with
  | nil => simp
  | cons x xs ih =>
    intro c
    rw [List.foldl_cons, List.countP_cons, ih]
    by_cases hx : p x
    · simp only [if_pos hx, hx]
      simp only [decide_eq_true_eq]
      simp [hx]
      omega
    · simp only [if_neg hx, hx]
      simp [hx]

/-- The nested counting loops of `fcp` are a sum of `countP`s over the outer
list. -/
theorem foldl_foldl_count {α β : Type} (p : α → β → Prop)
    [inst : ∀ x, DecidablePred (p x)] (inner : List β) :
    ∀ (outer : List α) (c : ℕ),
      outer.foldl (fun c' x =>
          inner.foldl (fun c'' y => if p x y then c'' + 1 else c'') c') c
        = c + (outer.map (fun x => inner.countP (fun y => decide (p x y)))).sum := by
  intro outer
  induction outer with
  | nil => simp
  | cons x xs ih =>
    intro c
    rw [List.foldl_cons, foldl_ite_count (p x) inner, ih]
    simp [Nat.add_assoc]

/-- `concCount` counts the concordant ordered pairs, user by user. -/
theorem concCount_eq_sum (preds : List (ℚ × ℚ)) :
    concCount preds
      = (preds.map (fun x =>
          preds.countP (fun y => decide (x.2 > y.2 ∧ x.1 > y.1)))).sum := by
  have h := foldl_foldl_count (fun x y : ℚ × ℚ => x.2 > y.2 ∧ x.1 > y.1) preds preds 0
  simpa [concCount] using h

/-- `discCount` counts the discordant ordered pairs, user by user. -/
theorem discCount_eq_sum (preds : List (ℚ × ℚ)) :
    discCount preds
      = (preds.map (fun x =>
          preds.countP (fun y => decide (x.2 ≥ y.2 ∧ x.1 < y.1)))).sum := by
  have h := foldl_foldl_count (fun x y : ℚ × ℚ => x.2 ≥ y.2 ∧ x.1 < y.1) preds preds 0
  simpa [discCount] using h

/-- `concCount` only depends on the multiset of pairs. -/
theorem concCount_perm {l₁ l₂ : List (ℚ × ℚ)} (h : l₁.Perm l₂) :
    concCount l₁ = concCount l₂ := by
  rw [concCount_eq_sum, concCount_eq_sum]
  have h1 : l₁.map (fun x => l₁.countP (fun y => decide (x.2 > y.2 ∧ x.1 > y.1)))
      = l₁.map (fun x => l₂.countP (fun y => decide (x.2 > y.2 ∧ x.1 > y.1))) :=
    List.map_congr_left (fun x _ => h.countP_eq _)
  rw [h1]
  exact (h.map _).sum_eq

/-- `discCount` only depends on the multiset of pairs. -/
theorem discCount_perm {l₁ l₂ : List (ℚ × ℚ)} (h : l₁.Perm l₂) :
    discCount l₁ = discCount l₂ := by
  rw [discCount_eq_sum, discCount_eq_sum]
  have h1 : l₁.map (fun x => l₁.countP (fun y => decide (x.2 ≥ y.2 ∧ x.1 < y.1)))
      = l₁.map (fun x => l₂.countP (fun y => decide (x.2 ≥ y.2 ∧ x.1 < y.1))) :=
    List.map_congr_left (fun x _ => h.countP_eq _)
  rw [h1]
  exact (h.map _).sum_eq

/-- A singleton pair list has no concordant and no discordant pair: the only
ordered pair is the self-pair, and both conditions fail on it. -/
theorem concCount_singleton (x : ℚ × ℚ) :
    concCount [x] = 0 ∧ discCount [x] = 0 := by
  constructor <;> simp [concCount, discCount, lt_irrefl]

/-! ### The `defaultdict` grouping: `groupByUser` versus `predsOfUser` -/

/-- When the key is already present (keys being distinct), `addPred` appends to
that key's list in place. -/
theorem addPred_mem (g : List (ℕ × List (ℚ × ℚ))) (u : ℕ) (x : ℚ × ℚ)
    (hnd : (g.map Prod.fst).Nodup) (hu : u ∈ g.map Prod.fst) :
    addPred g u x = g.map (fun e => if e.1 = u then (e.1, e.2 ++ [x]) else e) := by
  induction g with
  | nil => simp at hu
  | cons e rest ih =>
    obtain ⟨v, ps⟩ := e
    rw [List.map_cons] at hnd
    simp only [List.map_cons, List.mem_cons] at hu
    rcases hu with hu | hu
    · subst hu
      have hne : ∀ e ∈ rest, e.1 ≠ u := by
        intro e he hcontra
        have hm : e.1 ∈ rest.map Prod.fst := List.mem_map_of_mem Prod.fst he
        rw [hcontra] at hm
        exact (List.nodup_cons.mp hnd).1 hm
      have hrest : rest.map (fun e => if e.1 = u then (e.1, e.2 ++ [x]) else e)
          = rest.map id := by
        apply List.map_congr_left
        intro e he
        simp [if_neg (hne e he)]
      simp [addPred, hrest]
    · have hvu : v ≠ u := by
        intro hcontra
        exact (List.nodup_cons.mp hnd).1 (hcontra ▸ hu)
      simp only [addPred, if_neg hvu, ih (List.nodup_cons.mp hnd).2 hu, List.map_cons]

/-- When the key is absent, `addPred` adds a fresh entry at the end. -/
theorem addPred_not_mem (g : List (ℕ × List (ℚ × ℚ))) (u : ℕ) (x : ℚ × ℚ)
    (hu : u ∉ g.map Prod.fst) :
    addPred g u x = g ++ [(u, [x])] := by
  induction g with
  | nil => rfl
  | cons e rest ih =>
    obtain ⟨v, ps⟩ := e
    simp only [List.map_cons, List.mem_cons, not_or] at hu
    have hvu : v ≠ u := fun hcontra => hu.1 hcontra.symm
    simp only [addPred, if_neg hvu, ih hu.2]
    rfl

/-- `predsOfUser` on a cons prepends the head's pair when it belongs to `u`. -/
theorem predsOfUser_cons (p : Prediction) (l : List Prediction) (u : ℕ) :
    predsOfUser (p :: l) u
      = (if p.uid = u then [(p.true_r, p.est)] else []) ++ predsOfUser l u := by
  rw [predsOfUser, List.filter_cons]
  by_cases hp : p.uid = u
  · simp [hp, predsOfUser]
  · simp [hp, predsOfUser]

/-- Invariant of the grouping fold: starting from an association list with
distinct keys whose entry at `u` is `prev u` (and `prev u = []` off its keys),
folding the predictions appends each user's pairs in input order. -/
theorem groupFold_invariant :
    ∀ (l : List Prediction) (g : List (ℕ × List (ℚ × ℚ))) (prev : ℕ → List (ℚ × ℚ)),
      (g.map Prod.fst).Nodup →
      (∀ e ∈ g, e.2 = prev e.1) →
      (∀ u, u ∉ g.map Prod.fst → prev u = []) →
      (((l.foldl (fun g' p => addPred g' p.uid (p.true_r, p.est)) g).map Prod.fst).Nodup
      ∧ (∀ u, u ∈ (l.foldl (fun g' p => addPred g' p.uid (p.true_r, p.est)) g).map Prod.fst
          ↔ u ∈ g.map Prod.fst ∨ u ∈ l.map (fun p => p.uid))
      ∧ (∀ e ∈ l.foldl (fun g' p => addPred g' p.uid (p.true_r, p.est)) g,
          e.2 = prev e.1 ++ predsOfUser l e.1)) := by
  intro l
  induction l with
  | nil =>
    intro g prev hnd hval _hoff
    refine ⟨hnd, by simp, ?_⟩
    intro e he
    simp [predsOfUser, hval e he]
  | cons p l ih =>
    intro g prev hnd hval hoff
    rw [List.foldl_cons]
    set g' := addPred g p.uid (p.true_r, p.est) with hg'
    set prev' := fun u => prev u ++ (if p.uid = u then [(p.true_r, p.est)] else []) with hprev'
    have hkeys : g'.map Prod.fst
        = if p.uid ∈ g.map Prod.fst then g.map Prod.fst else g.map Prod.fst ++ [p.uid] := by
      by_cases hmem : p.uid ∈ g.map Prod.fst
      · rw [if_pos hmem, hg', addPred_mem g p.uid _ hnd hmem, List.map_map]
        apply List.map_congr_left
        intro e _
        by_cases h1 : e.1 = p.uid <;> simp [h1]
      · rw [if_neg hmem, hg', addPred_not_mem g p.uid _ hmem]
        simp
    have hnd' : (g'.map Prod.fst).Nodup := by
      rw [hkeys]
      by_cases hmem : p.uid ∈ g.map Prod.fst
      · rwa [if_pos hmem]
      · rw [if_neg hmem]
        simp [List.nodup_append, hnd, hmem]
    have hval' : ∀ e ∈ g', e.2 = prev' e.1 := by
      intro e he
      by_cases hmem : p.uid ∈ g.map Prod.fst
      · rw [hg', addPred_mem g p.uid _ hnd hmem] at he
        obtain ⟨e₀, he₀, hEq⟩ := List.mem_map.mp he
        by_cases h1 : e₀.1 = p.uid
        · rw [if_pos h1] at hEq
          rw [← hEq]
          simp only [hprev']
          rw [if_pos h1.symm, hval e₀ he₀, h1]
        · rw [if_neg h1] at hEq
          rw [← hEq]
          simp only [hprev']
          rw [if_neg fun hcontra => h1 hcontra.symm, List.append_nil]
          exact hval e₀ he₀
      · rw [hg', addPred_not_mem g p.uid _ hmem, List.mem_append] at he
        rcases he with he | he
        · have h1 : e.1 ≠ p.uid := by
            intro hcontra
            exact hmem (hcontra ▸ List.mem_map_of_mem Prod.fst he)
          simp only [hprev']
          rw [if_neg fun hcontra => h1 hcontra.symm, List.append_nil]
          exact hval e he
        · simp only [List.mem_singleton] at he
          subst he
          simp [hprev', hoff p.uid hmem]
    have hoff' : ∀ u, u ∉ g'.map Prod.fst → prev' u = [] := by
      intro u hu
      rw [hkeys] at hu
      by_cases hmem : p.uid ∈ g.map Prod.fst
      · rw [if_pos hmem] at hu
        have hne : p.uid ≠ u := fun hcontra => hu (hcontra ▸ hmem)
        simp only [hprev']
        rw [if_neg hne, List.append_nil]
        exact hoff u hu
      · rw [if_neg hmem, List.mem_append] at hu
        push_neg at hu
        have hne : p.uid ≠ u := by
          intro hcontra
          exact hu.2 (by simp [hcontra])
        simp only [hprev']
        rw [if_neg hne, List.append_nil]
        exact hoff u hu.1
    obtain ⟨c1, c2, c3⟩ := ih g' prev' hnd' hval' hoff'
    refine ⟨c1, ?_, ?_⟩
    · intro u
      rw [c2 u, hkeys]
      by_cases hmem : p.uid ∈ g.map Prod.fst
      · rw [if_pos hmem]
        simp only [List.map_cons, List.mem_cons]
        constructor
        · intro h
          rcases h with h | h
          · exact Or.inl h
          · exact Or.inr (Or.inr h)
        · intro h
          rcases h with h | h | h
          · exact Or.inl h
          · exact Or.inl (h ▸ hmem)
          · exact Or.inr h
      · rw [if_neg hmem]
        simp only [List.mem_append, List.mem_singleton, List.map_cons, List.mem_cons]
        tauto
    · intro e he
      rw [c3 e he, hprev', predsOfUser_cons, List.append_assoc]

/-- The keys of `groupByUser` are distinct. -/
theorem groupByUser_keys_nodup (l : List Prediction) :
    ((groupByUser l).map Prod.fst).Nodup :=
  (groupFold_invariant l [] (fun _ => []) (by simp) (by simp) (by simp)).1

/-- The keys of `groupByUser` are exactly the user ids of the input. -/
theorem groupByUser_mem_keys (l : List Prediction) (u : ℕ) :
    u ∈ (groupByUser l).map Prod.fst ↔ u ∈ l.map (fun p => p.uid) := by
  have h := (groupFold_invariant l [] (fun _ => []) (by simp) (by simp) (by simp)).2.1 u
  simpa using h

/-- Each entry of `groupByUser` holds exactly that user's pairs in input
order. -/
theorem groupByUser_entries (l : List Prediction) :
    ∀ e ∈ groupByUser l, e.2 = predsOfUser l e.1 := by
  intro e he
  have h := (groupFold_invariant l [] (fun _ => []) (by simp) (by simp) (by simp)).2.2 e he
  simpa using h

/-- `groupByUser` is its own key list paired with `predsOfUser`. -/
theorem groupByUser_eq (l : List Prediction) :
    groupByUser l
      = ((groupByUser l).map Prod.fst).map (fun u => (u, predsOfUser l u)) := by
  rw [List.map_map]
  symm
  calc (groupByUser l).map ((fun u => (u, predsOfUser l u)) ∘ Prod.fst)
      = (groupByUser l).map id := by
        apply List.map_congr_left
        intro e he
        have h2 := groupByUser_entries l e he
        simp only [Function.comp_apply, id_eq]
        exact Prod.ext rfl h2.symm
    _ = groupByUser l := List.map_id _

/-- The key list of `groupByUser` is a permutation of the deduplicated user
ids. -/
theorem groupByUser_keys_perm (l : List Prediction) :
    ((groupByUser l).map Prod.fst).Perm (userIds l) := by
  rw [userIds, List.perm_ext_iff_of_nodup (groupByUser_keys_nodup l) (List.nodup_dedup _)]
  intro u
  rw [groupByUser_mem_keys, List.mem_dedup]

/-! ### The two means and the shape of `fcp` -/

/-- `meanOrZero` of counts is non-negative. -/
theorem meanOrZero_nonneg (vals : List ℕ) : 0 ≤ meanOrZero vals := by
  rw [meanOrZero]
  split
  · exact le_refl 0
  · rw [mean]
    apply div_nonneg
    · apply List.sum_nonneg
      intro x hx
      obtain ⟨n, _hn, rfl⟩ := List.mem_map.mp hx
      exact Nat.cast_nonneg n
    · exact Nat.cast_nonneg _

/-- `meanOrZero` of a non-empty list of non-zero counts is positive. -/
theorem meanOrZero_pos (vals : List ℕ) (hne : vals ≠ []) (hv : ∀ n ∈ vals, n ≠ 0) :
    0 < meanOrZero vals := by
  have hmapne : vals.map (Nat.cast : ℕ → ℚ) ≠ [] := by simpa using hne
  rw [meanOrZero, if_neg (by simpa [List.isEmpty_iff] using hne), mean]
  apply div_pos
  · apply List.sum_pos
    · intro x hx
      obtain ⟨n, hn, rfl⟩ := List.mem_map.mp hx
      exact_mod_cast Nat.pos_of_ne_zero (hv n hn)
    · exact hmapne
  · have h1 : 0 < (vals.map (Nat.cast : ℕ → ℚ)).length := List.length_pos.mpr hmapne
    exact_mod_cast h1

/-- `meanOrZero` only depends on the multiset of counts. -/
theorem meanOrZero_perm {v w : List ℕ} (h : v.Perm w) :
    meanOrZero v = meanOrZero w := by
  have hmap : (v.map (Nat.cast : ℕ → ℚ)).Perm (w.map (Nat.cast : ℕ → ℚ)) :=
    List.Perm.map _ h
  have hsum : (v.map (Nat.cast : ℕ → ℚ)).sum = (w.map (Nat.cast : ℕ → ℚ)).sum :=
    hmap.sum_eq
  have hlen : v.length = w.length := h.length_eq
  have hemp : v.isEmpty = w.isEmpty := by
    rw [Bool.eq_iff_iff, List.isEmpty_iff, List.isEmpty_iff]
    constructor
    · intro hv
      exact ((hv ▸ h : ([] : List ℕ).Perm w).symm).eq_nil
    · intro hw
      exact ((hw ▸ h.symm : ([] : List ℕ).Perm v).symm).eq_nil
  rw [meanOrZero, meanOrZero, mean, mean, hemp, hsum, List.length_map, List.length_map, hlen]

/-- The values list of `nc_u` matches its `userIds`-and-filter description. -/
theorem ncValues_perm_spec (l : List Prediction) :
    (ncValues l).Perm
      (((userIds l).map (fun u => concCount (predsOfUser l u))).filter
        (fun n => decide (n ≠ 0))) := by
  rw [ncValues]
  conv_lhs => rw [groupByUser_eq l]
  rw [List.map_map]
  apply List.Perm.filter
  exact (groupByUser_keys_perm l).map _

/-- The values list of `nd_u` matches its `userIds`-and-filter description. -/
theorem ndValues_perm_spec (l : List Prediction) :
    (ndValues l).Perm
      (((userIds l).map (fun u => discCount (predsOfUser l u))).filter
        (fun n => decide (n ≠ 0))) := by
  rw [ndValues]
  conv_lhs => rw [groupByUser_eq l]
  rw [List.map_map]
  apply List.Perm.filter
  exact (groupByUser_keys_perm l).map _

/-- The `nc` of `fcp` equals the mean of the concordant counts over the users
having at least one concordant pair. -/
theorem ncVal_eq_ncPos (l : List Prediction) : ncVal l = ncPos l :=
  meanOrZero_perm (ncValues_perm_spec l)

/-- The `nd` of `fcp` equals the mean of the discordant counts over the users
having at least one discordant pair. -/
theorem ndVal_eq_ndPos (l : List Prediction) : ndVal l = ndPos l :=
  meanOrZero_perm (ndValues_perm_spec l)

/-- Every value held by `nc_u` is a non-zero count. -/
theorem ncValues_ne_zero (l : List Prediction) : ∀ n ∈ ncValues l, n ≠ 0 := by
  intro n hn
  have h := List.of_mem_filter hn
  simpa using h

/-- Every value held by `nd_u` is a non-zero count. -/
theorem ndValues_ne_zero (l : List Prediction) : ∀ n ∈ ndValues l, n ≠ 0 := by
  intro n hn
  have h := List.of_mem_filter hn
  simpa using h

/-- On a non-empty list, `fcp` reduces to the test on `nc + nd` and the
ratio. -/
theorem fcp_of_ne_nil (l : List Prediction) (h : l ≠ []) :
    fcp l = if ncVal l + ndVal l = 0 then .error fcpDegenerateMsg
      else .ok (ncVal l / (ncVal l + ndVal l)) := by
  rw [fcp, if_neg (by simpa [List.isEmpty_iff] using h)]

/-- `nc + nd = 0` exactly when both defaultdicts stayed empty. -/
theorem ncnd_zero_iff (l : List Prediction) :
    ncVal l + ndVal l = 0 ↔ ncValues l = [] ∧ ndValues l = [] := by
  constructor
  · intro h0
    by_contra hcon
    rcases not_and_or.mp hcon with hnc | hnd
    · have hpos := meanOrZero_pos (ncValues l) hnc (ncValues_ne_zero l)
      have hnn := meanOrZero_nonneg (ndValues l)
      rw [ncVal, ndVal] at h0
      linarith
    · have hpos := meanOrZero_pos (ndValues l) hnd (ndValues_ne_zero l)
      have hnn := meanOrZero_nonneg (ncValues l)
      rw [ncVal, ndVal] at h0
      linarith
  · rintro ⟨hnc, hnd⟩
    rw [ncVal, ndVal, hnc, hnd]
    simp [meanOrZero]

/-- `nc_u` stays empty exactly when no user has a concordant pair. -/
theorem ncValues_eq_nil_iff (l : List Prediction) :
    ncValues l = [] ↔ ∀ u ∈ userIds l, concCount (predsOfUser l u) = 0 := by
  have hp := ncValues_perm_spec l
  constructor
  · intro h
    rw [h] at hp
    have hs : (((userIds l).map (fun u => concCount (predsOfUser l u))).filter
        (fun n => decide (n ≠ 0))) = [] := hp.symm.eq_nil
    rw [List.filter_eq_nil_iff] at hs
    intro u hu
    have := hs _ (List.mem_map_of_mem _ hu)
    simpa using this
  · intro h
    have hs : (((userIds l).map (fun u => concCount (predsOfUser l u))).filter
        (fun n => decide (n ≠ 0))) = [] := by
      rw [List.filter_eq_nil_iff]
      intro a ha
      obtain ⟨u, hu, rfl⟩ := List.mem_map.mp ha
      simp [h u hu]
    rw [hs] at hp
    exact hp.eq_nil

/-- `nd_u` stays empty exactly when no user has a discordant pair. -/
theorem ndValues_eq_nil_iff (l : List Prediction) :
    ndValues l = [] ↔ ∀ u ∈ userIds l, discCount (predsOfUser l u) = 0 := by
  have hp := ndValues_perm_spec l
  constructor
  · intro h
    rw [h] at hp
    have hs : (((userIds l).map (fun u => discCount (predsOfUser l u))).filter
        (fun n => decide (n ≠ 0))) = [] := hp.symm.eq_nil
    rw [List.filter_eq_nil_iff] at hs
    intro u hu
    have := hs _ (List.mem_map_of_mem _ hu)
    simpa using this
  · intro h
    have hs : (((userIds l).map (fun u => discCount (predsOfUser l u))).filter
        (fun n => decide (n ≠ 0))) = [] := by
      rw [List.filter_eq_nil_iff]
      intro a ha
      obtain ⟨u, hu, rfl⟩ := List.mem_map.mp ha
      simp [h u hu]
    rw [hs] at hp
    exact hp.eq_nil

/-! ### Concrete inputs -/

/-- Users 1 and 2 each have one concordant pair and no discordant pair;
user 3 has one discordant pair and no concordant pair. -/
def exThreeUsers : List Prediction :=
  [⟨1, 1, 1, 1, ()⟩, ⟨1, 2, 2, 2, ()⟩, ⟨2, 1, 1, 1, ()⟩, ⟨2, 2, 2, 2, ()⟩,
   ⟨3, 1, 1, 2, ()⟩, ⟨3, 2, 2, 1, ()⟩]

/-- The scenario list of the spec: true ratings 3, 4, 2, 5 and estimates
2.5, 3.8, 2.0, 4.9. -/
def exScenario : List Prediction :=
  [⟨1, 1, 3, 5/2, ()⟩, ⟨1, 2, 4, 19/5, ()⟩, ⟨2, 1, 2, 2, ()⟩, ⟨2, 2, 5, 49/10, ()⟩]

/-- A single prediction (its only user has exactly one prediction). -/
def exSingle : List Prediction := [⟨1, 1, 1, 1, ()⟩]

/-- One user with two predictions ranked consistently. -/
def exConc : List Prediction := [⟨1, 1, 1, 1, ()⟩, ⟨1, 2, 2, 3, ()⟩]

/-- `exConc` with its two records swapped. -/
def exConcSwapped : List Prediction := [⟨1, 2, 2, 3, ()⟩, ⟨1, 1, 1, 1, ()⟩]

/-- The rational mean of squared errors, cast to the reals. -/
theorem mseVal_cast (l : List Prediction) :
    ((mseVal l : ℚ) : ℝ)
      = ((l.map (fun p => ((p.true_r : ℝ) - (p.est : ℝ)) ^ 2)).sum) / (l.length : ℝ) := by
  rw [mseVal, mean]
  push_cast
  rw [List.map_map, List.length_map]
  congr 1
  apply congrArg List.sum
  apply List.map_congr_left
  intro p _
  simp only [Function.comp_apply]
  push_cast
  ring

/-! ### The claims -/

/-- C5: on the empty prediction list, `rmse`, `mae` and `fcp` each return the
empty-input error immediately, before any computation. -/
theorem c5_empty_input_error :
    rmse [] = .error emptyMsg ∧ mae [] = .error emptyMsg ∧ fcp [] = .error emptyMsg :=
  ⟨rfl, rfl, rfl⟩

/-- C4: the per-user pair scan of `fcp` ranges over every ordered pair of the
user's predictions (self-pairs included, both directions counted); the
concordant counter counts exactly the pairs with `esti > estj` and
`r0i > r0j`, the discordant counter exactly those with `esti >= estj` and
`r0i < r0j`. -/
theorem c4_pair_scan (preds : List (ℚ × ℚ)) :
    concCount preds
      = ((preds.product preds).filter
          (fun q => decide (q.1.2 > q.2.2 ∧ q.1.1 > q.2.1))).length
    ∧ discCount preds
      = ((preds.product preds).filter
          (fun q => decide (q.1.2 ≥ q.2.2 ∧ q.1.1 < q.2.1))).length := by
  constructor
  · rw [concCount_eq_sum, ← List.countP_eq_length_filter,
      show preds.product preds = preds.flatMap (fun a => preds.map (Prod.mk a)) from rfl,
      List.countP_flatMap]
    apply congrArg List.sum
    apply List.map_congr_left
    intro x _
    show preds.countP (fun y => decide (x.2 > y.2 ∧ x.1 > y.1))
        = List.countP (fun q => decide (q.1.2 > q.2.2 ∧ q.1.1 > q.2.1))
            (preds.map (Prod.mk x))
    rw [List.countP_map]
    rfl
  · rw [discCount_eq_sum, ← List.countP_eq_length_filter,
      show preds.product preds = preds.flatMap (fun a => preds.map (Prod.mk a)) from rfl,
      List.countP_flatMap]
    apply congrArg List.sum
    apply List.map_congr_left
    intro x _
    show preds.countP (fun y => decide (x.2 ≥ y.2 ∧ x.1 < y.1))
        = List.countP (fun q => decide (q.1.2 ≥ q.2.2 ∧ q.1.1 < q.2.1))
            (preds.map (Prod.mk x))
    rw [List.countP_map]
    rfl

/-- C2: on a non-empty prediction list, `rmse` returns the square root of the
arithmetic mean of the squared differences, a non-negative real. -/
theorem c2_rmse_spec (l : List Prediction) (h : l ≠ []) :
    ∃ r : ℝ, rmse l = .ok r ∧ 0 ≤ r ∧
      r ^ 2 = ((l.map (fun p => ((p.true_r : ℝ) - (p.est : ℝ)) ^ 2)).sum)
        / (l.length : ℝ) := by
  refine ⟨Real.sqrt (mseVal l), ?_, Real.sqrt_nonneg _, ?_⟩
  · rw [rmse, if_neg (by simpa [List.isEmpty_iff] using h)]
  · have hnn : (0 : ℚ) ≤ mseVal l := by
      rw [mseVal, mean]
      apply div_nonneg
      · apply List.sum_nonneg
        intro x hx
        obtain ⟨p, _, rfl⟩ := List.mem_map.mp hx
        positivity
      · positivity
    rw [Real.sq_sqrt (by exact_mod_cast hnn), mseVal_cast]

/-- C3: on a non-empty prediction list, `mae` returns the arithmetic mean of
the absolute differences, a non-negative rational. -/
theorem c3_mae_spec (l : List Prediction) (h : l ≠ []) :
    ∃ q : ℚ, mae l = .ok q ∧ 0 ≤ q ∧
      q = ((l.map (fun p => |p.true_r - p.est|)).sum) / (l.length : ℚ) := by
  refine ⟨mean (l.map (fun p => |p.true_r - p.est|)), ?_, ?_, ?_⟩
  · rw [mae, if_neg (by simpa [List.isEmpty_iff] using h)]
  · rw [mean]
    apply div_nonneg
    · apply List.sum_nonneg
      intro x hx
      obtain ⟨p, _, rfl⟩ := List.mem_map.mp hx
      positivity
    · positivity
  · rw [mean, List.length_map]

/-- C2 witness: the theorem applied to a concrete non-empty list. -/
theorem c2_rmse_spec_witness :
    ∃ r : ℝ, rmse exSingle = .ok r ∧ 0 ≤ r ∧
      r ^ 2 = ((exSingle.map (fun p => ((p.true_r : ℝ) - (p.est : ℝ)) ^ 2)).sum)
        / (exSingle.length : ℝ) :=
  c2_rmse_spec exSingle (by simp [exSingle])

/-- C3 witness: the theorem applied to a concrete non-empty list. -/
theorem c3_mae_spec_witness :
    ∃ q : ℚ, mae exSingle = .ok q ∧ 0 ≤ q ∧
      q = ((exSingle.map (fun p => |p.true_r - p.est|)).sum) / (exSingle.length : ℚ) :=
  c3_mae_spec exSingle (by simp [exSingle])

/-- `meanOrZero` of a list of non-zero counts vanishes only on the empty
list. -/
theorem meanOrZero_eq_zero_iff (vals : List ℕ) (hv : ∀ n ∈ vals, n ≠ 0) :
    meanOrZero vals = 0 ↔ vals = [] := by
  constructor
  · intro hz
    by_contra hne
    exact absurd hz (ne_of_gt (meanOrZero_pos vals hne hv))
  · intro hnil
    rw [hnil]
    simp [meanOrZero]

/-- `fcp` never returns a value on the empty list. -/
theorem fcp_ok_ne_nil {l : List Prediction} {v : ℚ} (h : fcp l = .ok v) :
    l ≠ [] := by
  intro hl
  subst hl
  simp [fcp] at h

/-- C1 is false on the code: `nc` and `nd` are means over the touched keys of
the defaultdicts only. On `exThreeUsers`, `fcp` returns 1/2, while the mean of
the concordant (discordant) counts over all three users present would give
`nc = 2/3`, `nd = 1/3` and hence the value 2/3. -/
theorem c1_counterexample :
    fcp exThreeUsers = .ok (1/2)
    ∧ specNcAllUsers exThreeUsers
        / (specNcAllUsers exThreeUsers + specNdAllUsers exThreeUsers) = 2/3
    ∧ ((1 : ℚ)/2 ≠ 2/3) := by
  refine ⟨?_, ?_, by norm_num⟩
  · norm_num [fcp, ncVal, ndVal, ncValues, ndValues, groupByUser, addPred, concCount,
      discCount, meanOrZero, mean, exThreeUsers, List.foldl, List.filter]
  · norm_num [specNcAllUsers, specNdAllUsers, userIds, predsOfUser, concCount, discCount,
      mean, exThreeUsers, List.foldl, List.dedup, List.filter]

/-- C1 (amended): whenever `fcp` returns normally, its value is
`nc / (nc + nd)` where `nc` (resp. `nd`) is the arithmetic mean of the
concordant (resp. discordant) counts over the users having at least one
concordant (resp. discordant) pair — zero if there is no such user; users
with a zero count contribute no term to the corresponding mean. -/
theorem c1_fcp_ok_value (l : List Prediction) (v : ℚ) (h : fcp l = .ok v) :
    v = ncPos l / (ncPos l + ndPos l) := by
  have hne : l ≠ [] := fcp_ok_ne_nil h
  rw [fcp_of_ne_nil l hne] at h
  by_cases h0 : ncVal l + ndVal l = 0
  · rw [if_pos h0] at h
    cases h
  · rw [if_neg h0] at h
    rw [← Except.ok.inj h, ncVal_eq_ncPos, ndVal_eq_ndPos]

/-- C1 witness: the amended theorem applied to a concrete input on which
`fcp` returns normally. -/
theorem c1_fcp_ok_value_witness :
    (1/2 : ℚ) = ncPos exThreeUsers / (ncPos exThreeUsers + ndPos exThreeUsers) :=
  c1_fcp_ok_value exThreeUsers (1/2)
    (by norm_num [fcp, ncVal, ndVal, ncValues, ndValues, groupByUser, addPred, concCount,
      discCount, meanOrZero, mean, exThreeUsers, List.foldl, List.filter])

/-- C6: on a non-empty prediction list, `fcp` fails with the degenerate error
exactly when, for every user, no ordered pair of that user is concordant or
discordant; in particular it fails whenever every user has exactly one
prediction. -/
theorem c6_fcp_degenerate (l : List Prediction) (h : l ≠ []) :
    (fcp l = .error fcpDegenerateMsg
      ↔ ∀ u ∈ userIds l,
          concCount (predsOfUser l u) = 0 ∧ discCount (predsOfUser l u) = 0)
    ∧ ((∀ u ∈ userIds l, (predsOfUser l u).length = 1)
        → fcp l = .error fcpDegenerateMsg) := by
  have key : fcp l = .error fcpDegenerateMsg ↔ ncVal l + ndVal l = 0 := by
    rw [fcp_of_ne_nil l h]
    constructor
    · intro hEq
      by_contra h0
      rw [if_neg h0] at hEq
      cases hEq
    · intro h0
      rw [if_pos h0]
  constructor
  · rw [key, ncnd_zero_iff, ncValues_eq_nil_iff, ndValues_eq_nil_iff]
    constructor
    · rintro ⟨hc, hd⟩ u hu
      exact ⟨hc u hu, hd u hu⟩
    · intro hall
      exact ⟨fun u hu => (hall u hu).1, fun u hu => (hall u hu).2⟩
  · intro h1
    rw [key, ncnd_zero_iff, ncValues_eq_nil_iff, ndValues_eq_nil_iff]
    constructor <;> intro u hu
    · obtain ⟨x, hx⟩ := List.length_eq_one.mp (h1 u hu)
      rw [hx]
      exact (concCount_singleton x).1
    · obtain ⟨x, hx⟩ := List.length_eq_one.mp (h1 u hu)
      rw [hx]
      exact (concCount_singleton x).2

/-- C6 witness: the theorem applied to a concrete single-prediction list. -/
theorem c6_fcp_degenerate_witness :
    (fcp exSingle = .error fcpDegenerateMsg
      ↔ ∀ u ∈ userIds exSingle,
          concCount (predsOfUser exSingle u) = 0
          ∧ discCount (predsOfUser exSingle u) = 0)
    ∧ ((∀ u ∈ userIds exSingle, (predsOfUser exSingle u).length = 1)
        → fcp exSingle = .error fcpDegenerateMsg) :=
  c6_fcp_degenerate exSingle (by simp [exSingle])

/-- C10: whenever `fcp` returns normally, its value lies in [0, 1]; it is 0
exactly when no user has a concordant pair and 1 exactly when no user has a
discordant pair. -/
theorem c10_fcp_range (l : List Prediction) (v : ℚ) (h : fcp l = .ok v) :
    0 ≤ v ∧ v ≤ 1
    ∧ (v = 0 ↔ ∀ u ∈ userIds l, concCount (predsOfUser l u) = 0)
    ∧ (v = 1 ↔ ∀ u ∈ userIds l, discCount (predsOfUser l u) = 0) := by
  have hne : l ≠ [] := fcp_ok_ne_nil h
  rw [fcp_of_ne_nil l hne] at h
  by_cases h0 : ncVal l + ndVal l = 0
  · rw [if_pos h0] at h
    cases h
  · rw [if_neg h0] at h
    have hv : v = ncVal l / (ncVal l + ndVal l) := (Except.ok.inj h).symm
    have hncn : 0 ≤ ncVal l := meanOrZero_nonneg _
    have hndn : 0 ≤ ndVal l := meanOrZero_nonneg _
    have hpos : 0 < ncVal l + ndVal l := lt_of_le_of_ne (by linarith) (Ne.symm h0)
    subst hv
    refine ⟨div_nonneg hncn hpos.le, ?_, ?_, ?_⟩
    · rw [div_le_one hpos]
      linarith
    · have hz : ncVal l / (ncVal l + ndVal l) = 0 ↔ ncVal l = 0 := by
        rw [div_eq_zero_iff]
        constructor
        · rintro (h1 | h1)
          · exact h1
          · exact absurd h1 h0
        · exact fun h1 => Or.inl h1
      rw [hz, ncVal, meanOrZero_eq_zero_iff _ (ncValues_ne_zero l),
        ncValues_eq_nil_iff]
    · have h1 : ncVal l / (ncVal l + ndVal l) = 1 ↔ ndVal l = 0 := by
        rw [div_eq_one_iff_eq (ne_of_gt hpos)]
        constructor
        · intro hEq
          linarith
        · intro hz
          rw [hz, add_zero]
      rw [h1, ndVal, meanOrZero_eq_zero_iff _ (ndValues_ne_zero l),
        ndValues_eq_nil_iff]

/-- C10 witness: the theorem applied to a concrete input on which `fcp`
returns 1. -/
theorem c10_fcp_range_witness :
    0 ≤ (1 : ℚ) ∧ (1 : ℚ) ≤ 1
    ∧ ((1 : ℚ) = 0 ↔ ∀ u ∈ userIds exConc, concCount (predsOfUser exConc u) = 0)
    ∧ ((1 : ℚ) = 1 ↔ ∀ u ∈ userIds exConc, discCount (predsOfUser exConc u) = 0) :=
  c10_fcp_range exConc 1
    (by norm_num [fcp, ncVal, ndVal, ncValues, ndValues, groupByUser, addPred, concCount,
      discCount, meanOrZero, mean, exConc, List.foldl, List.filter])

/-- Arithmetic helper: for a non-negative value, twice its product with the
sum of a list of non-negative values is at most length-times-its-square plus
the sum of squares. -/
theorem two_mul_sum_le (a : ℚ) (_ha : 0 ≤ a) :
    ∀ xs : List ℚ, (∀ x ∈ xs, 0 ≤ x) →
      2 * a * xs.sum ≤ xs.length * a ^ 2 + (xs.map (fun x => x ^ 2)).sum := by
  intro xs
  induction xs with
  | nil => simp
  | cons x t ih =>
    intro hx
    have hxt : ∀ y ∈ t, 0 ≤ y := fun y hy => hx y (List.mem_cons_of_mem x hy)
    have h1 := ih hxt
    have h2 : 2 * a * x ≤ a ^ 2 + x ^ 2 := two_mul_le_add_sq a x
    simp only [List.sum_cons, List.map_cons, List.length_cons]
    push_cast
    nlinarith [h1, h2]

/-- Cauchy–Schwarz for lists of non-negative values: the square of the sum is
at most the length times the sum of squares. -/
theorem sq_sum_le_length_mul_sum_sq :
    ∀ xs : List ℚ, (∀ x ∈ xs, 0 ≤ x) →
      xs.sum ^ 2 ≤ xs.length * (xs.map (fun x => x ^ 2)).sum := by
  intro xs
  induction xs with
  | nil => simp
  | cons x t ih =>
    intro hx
    have hx0 : 0 ≤ x := hx x (List.mem_cons_self x t)
    have hxt : ∀ y ∈ t, 0 ≤ y := fun y hy => hx y (List.mem_cons_of_mem x hy)
    have h1 := ih hxt
    have h2 := two_mul_sum_le x hx0 t hxt
    simp only [List.sum_cons, List.map_cons, List.length_cons]
    push_cast
    nlinarith [h1, h2]

/-- The mean squared error is non-negative. -/
theorem mseVal_nonneg (l : List Prediction) : 0 ≤ mseVal l := by
  rw [mseVal, mean]
  apply div_nonneg
  · apply List.sum_nonneg
    intro x hx
    obtain ⟨p, _, rfl⟩ := List.mem_map.mp hx
    positivity
  · positivity

/-- The mean absolute error is non-negative. -/
theorem maeMean_nonneg (l : List Prediction) :
    0 ≤ mean (l.map (fun p => |p.true_r - p.est|)) := by
  rw [mean]
  apply div_nonneg
  · apply List.sum_nonneg
    intro x hx
    obtain ⟨p, _, rfl⟩ := List.mem_map.mp hx
    positivity
  · positivity

/-- The square of the mean absolute error is at most the mean squared
error. -/
theorem sq_maeMean_le_mseVal (l : List Prediction) (h : l ≠ []) :
    (mean (l.map (fun p => |p.true_r - p.est|))) ^ 2 ≤ mseVal l := by
  have hn : (0 : ℚ) < l.length := by
    have := List.length_pos.mpr h
    exact_mod_cast this
  have hcs := sq_sum_le_length_mul_sum_sq (l.map (fun p => |p.true_r - p.est|))
    (by
      intro x hx
      obtain ⟨p, _, rfl⟩ := List.mem_map.mp hx
      positivity)
  rw [List.length_map, List.map_map] at hcs
  have hmapeq : l.map ((fun x => x ^ 2) ∘ (fun p => |p.true_r - p.est|))
      = l.map (fun p => (p.true_r - p.est) ^ 2) :=
    List.map_congr_left (fun p _ => by simp [Function.comp, sq_abs])
  rw [hmapeq] at hcs
  rw [mseVal, mean, mean, div_pow, List.length_map, List.length_map]
  rw [div_le_div_iff (by positivity) hn]
  nlinarith [hcs, hn]

set_option maxHeartbeats 1000000 in
/-- C7: on a non-empty prediction list, `rmse` dominates `mae`, both are
non-negative, and they agree when all absolute errors are identical. -/
theorem c7_rmse_ge_mae (l : List Prediction) (h : l ≠ []) :
    ∃ (q : ℚ) (r : ℝ), mae l = .ok q ∧ rmse l = .ok r ∧ 0 ≤ q ∧ (q : ℝ) ≤ r
      ∧ ((∀ p₁ ∈ l, ∀ p₂ ∈ l, |p₁.true_r - p₁.est| = |p₂.true_r - p₂.est|)
          → r = (q : ℝ)) := by
  refine ⟨mean (l.map (fun p => |p.true_r - p.est|)), Real.sqrt (mseVal l),
    ?_, ?_, ?_, ?_, ?_⟩
  · rw [mae, if_neg (by simpa [List.isEmpty_iff] using h)]
  · rw [rmse, if_neg (by simpa [List.isEmpty_iff] using h)]
  · exact maeMean_nonneg l
  · have hq0 : (0 : ℝ) ≤ ((mean (l.map (fun p => |p.true_r - p.est|)) : ℚ) : ℝ) := by
      exact_mod_cast maeMean_nonneg l
    have hm0 : (0 : ℝ) ≤ ((mseVal l : ℚ) : ℝ) := by
      exact_mod_cast mseVal_nonneg l
    rw [Real.le_sqrt hq0 hm0]
    exact_mod_cast sq_maeMean_le_mseVal l h
  · intro hall
    obtain ⟨p₀, hp₀⟩ := List.exists_mem_of_ne_nil l h
    have hc0 : 0 ≤ |p₀.true_r - p₀.est| := abs_nonneg _
    have hn : (0 : ℚ) < l.length := by
      have := List.length_pos.mpr h
      exact_mod_cast this
    have habs : l.map (fun p => |p.true_r - p.est|)
        = List.replicate l.length |p₀.true_r - p₀.est| := by
      rw [List.eq_replicate_iff]
      refine ⟨List.length_map _ _, ?_⟩
      intro b hb
      obtain ⟨p, hp, rfl⟩ := List.mem_map.mp hb
      exact hall p hp p₀ hp₀
    have hsq : l.map (fun p => (p.true_r - p.est) ^ 2)
        = List.replicate l.length (|p₀.true_r - p₀.est| ^ 2) := by
      rw [List.eq_replicate_iff]
      refine ⟨List.length_map _ _, ?_⟩
      intro b hb
      obtain ⟨p, hp, rfl⟩ := List.mem_map.mp hb
      rw [← sq_abs, hall p hp p₀ hp₀]
    have hq : mean (l.map (fun p => |p.true_r - p.est|)) = |p₀.true_r - p₀.est| := by
      rw [mean, habs, List.sum_replicate, List.length_replicate, nsmul_eq_mul,
        mul_div_cancel_left₀ _ (ne_of_gt hn)]
    have hm : mseVal l = |p₀.true_r - p₀.est| ^ 2 := by
      rw [mseVal, mean, hsq, List.sum_replicate, List.length_replicate, nsmul_eq_mul,
        mul_div_cancel_left₀ _ (ne_of_gt hn)]
    rw [hq, hm]
    have hcast : ((|p₀.true_r - p₀.est| ^ 2 : ℚ) : ℝ)
        = ((|p₀.true_r - p₀.est| : ℚ) : ℝ) ^ 2 := by push_cast; ring
    rw [hcast, Real.sqrt_sq (by exact_mod_cast hc0)]

/-- C7 witness: the theorem applied to a concrete non-empty list. -/
theorem c7_rmse_ge_mae_witness :
    ∃ (q : ℚ) (r : ℝ), mae exConc = .ok q ∧ rmse exConc = .ok r ∧ 0 ≤ q
      ∧ (q : ℝ) ≤ r
      ∧ ((∀ p₁ ∈ exConc, ∀ p₂ ∈ exConc,
            |p₁.true_r - p₁.est| = |p₂.true_r - p₂.est|)
          → r = (q : ℝ)) :=
  c7_rmse_ge_mae exConc (by simp [exConc])

/-- On the scenario list the mean squared error is 3/40 = 0.075. -/
theorem mseVal_exScenario : mseVal exScenario = 3/40 := by
  norm_num [mseVal, mean, exScenario]

/-- On the scenario list `rmse` returns the square root of 3/40. -/
theorem rmse_exScenario : rmse exScenario = .ok (Real.sqrt ((3 : ℝ)/40)) := by
  rw [rmse, if_neg (by simp [exScenario]), mseVal_exScenario]
  have hc : ((3/40 : ℚ) : ℝ) = (3 : ℝ)/40 := by norm_num
  rw [hc]

/-- C8 is false on the code: on the scenario list the returned root mean
squared error exceeds 0.2550 by more than 0.01 (its value is
sqrt(0.075) = 0.2739 to four decimals), so it is not approximately 0.2550. -/
theorem c8_counterexample :
    rmse exScenario = .ok (Real.sqrt ((3 : ℝ)/40))
    ∧ (51 : ℝ)/200 + 1/100 < Real.sqrt ((3 : ℝ)/40) := by
  refine ⟨rmse_exScenario, ?_⟩
  have h1 : (53 : ℝ)/200 < Real.sqrt ((3 : ℝ)/40) :=
    (Real.lt_sqrt (by norm_num)).mpr (by norm_num)
  linarith

/-- C8 (amended): on the scenario list `mae` returns exactly 1/5 = 0.2000 and
`rmse` returns sqrt(3/40), which is 0.2739 to four decimal places (not
0.2550). -/
theorem c8_scenario_values :
    mae exScenario = .ok (1/5)
    ∧ rmse exScenario = .ok (Real.sqrt ((3 : ℝ)/40))
    ∧ |Real.sqrt ((3 : ℝ)/40) - 2739/10000| < 1/10000 := by
  refine ⟨?_, rmse_exScenario, ?_⟩
  · norm_num [mae, mean, exScenario, abs_of_nonneg]
  · rw [abs_lt]
    have hlb : (2738 : ℝ)/10000 < Real.sqrt ((3 : ℝ)/40) :=
      (Real.lt_sqrt (by norm_num)).mpr (by norm_num)
    have hub : Real.sqrt ((3 : ℝ)/40) < (2740 : ℝ)/10000 :=
      (Real.sqrt_lt' (by norm_num)).mpr (by norm_num)
    constructor <;> linarith

/-- Permutations preserve emptiness. -/
theorem perm_isEmpty_eq {α : Type} {l₁ l₂ : List α} (h : l₁.Perm l₂) :
    l₁.isEmpty = l₂.isEmpty := by
  rw [Bool.eq_iff_iff, List.isEmpty_iff, List.isEmpty_iff]
  constructor
  · intro hv
    exact ((hv ▸ h : ([] : List α).Perm l₂).symm).eq_nil
  · intro hw
    exact ((hw ▸ h.symm : ([] : List α).Perm l₁).symm).eq_nil

/-- The mean of any record-wise quantity is invariant under permutation. -/
theorem mean_map_perm {l l' : List Prediction} (f : Prediction → ℚ)
    (h : l.Perm l') : mean (l.map f) = mean (l'.map f) := by
  rw [mean, mean, (h.map f).sum_eq, List.length_map, List.length_map, h.length_eq]

/-- `nc` is invariant under permutation of the prediction list. -/
theorem ncVal_perm {l l' : List Prediction} (h : l.Perm l') :
    ncVal l = ncVal l' := by
  have huser : (userIds l).Perm (userIds l') := by
    rw [userIds, userIds]
    exact (h.map (fun p => p.uid)).dedup
  have hfun : ∀ u, concCount (predsOfUser l u) = concCount (predsOfUser l' u) := by
    intro u
    apply concCount_perm
    rw [predsOfUser, predsOfUser]
    exact (h.filter (fun p => decide (p.uid = u))).map (fun p => (p.true_r, p.est))
  have hmapeq : (userIds l').map (fun u => concCount (predsOfUser l u))
      = (userIds l').map (fun u => concCount (predsOfUser l' u)) :=
    List.map_congr_left (fun u _ => hfun u)
  have hp1 : (((userIds l).map (fun u => concCount (predsOfUser l u))).filter
        (fun n => decide (n ≠ 0))).Perm
      (((userIds l').map (fun u => concCount (predsOfUser l u))).filter
        (fun n => decide (n ≠ 0))) :=
    (huser.map _).filter _
  rw [hmapeq] at hp1
  have hchain : (ncValues l).Perm (ncValues l') :=
    ((ncValues_perm_spec l).trans hp1).trans (ncValues_perm_spec l').symm
  rw [ncVal, ncVal]
  exact meanOrZero_perm hchain

/-- `nd` is invariant under permutation of the prediction list. -/
theorem ndVal_perm {l l' : List Prediction} (h : l.Perm l') :
    ndVal l = ndVal l' := by
  have huser : (userIds l).Perm (userIds l') := by
    rw [userIds, userIds]
    exact (h.map (fun p => p.uid)).dedup
  have hfun : ∀ u, discCount (predsOfUser l u) = discCount (predsOfUser l' u) := by
    intro u
    apply discCount_perm
    rw [predsOfUser, predsOfUser]
    exact (h.filter (fun p => decide (p.uid = u))).map (fun p => (p.true_r, p.est))
  have hmapeq : (userIds l').map (fun u => discCount (predsOfUser l u))
      = (userIds l').map (fun u => discCount (predsOfUser l' u)) :=
    List.map_congr_left (fun u _ => hfun u)
  have hp1 : (((userIds l).map (fun u => discCount (predsOfUser l u))).filter
        (fun n => decide (n ≠ 0))).Perm
      (((userIds l').map (fun u => discCount (predsOfUser l u))).filter
        (fun n => decide (n ≠ 0))) :=
    (huser.map _).filter _
  rw [hmapeq] at hp1
  have hchain : (ndValues l).Perm (ndValues l') :=
    ((ndValues_perm_spec l).trans hp1).trans (ndValues_perm_spec l').symm
  rw [ndVal, ndVal]
  exact meanOrZero_perm hchain

/-- C9: reordering the prediction list changes neither `rmse` nor `mae` nor
`fcp` (same value, or the same error). -/
theorem c9_perm_invariant (l l' : List Prediction) (h : l.Perm l') :
    rmse l = rmse l' ∧ mae l = mae l' ∧ fcp l = fcp l' := by
  have hemp := perm_isEmpty_eq h
  refine ⟨?_, ?_, ?_⟩
  · have hm : mseVal l = mseVal l' := by
      rw [mseVal, mseVal, mean_map_perm _ h]
    rw [rmse, rmse, hemp, hm]
  · have hm : mean (l.map (fun p => |p.true_r - p.est|))
        = mean (l'.map (fun p => |p.true_r - p.est|)) := mean_map_perm _ h
    rw [mae, mae, hemp, hm]
  · by_cases hl : l = []
    · subst hl
      rw [h.symm.eq_nil]
    · have hl' : l' ≠ [] := by
        intro hcontra
        subst hcontra
        exact hl h.eq_nil
      rw [fcp_of_ne_nil l hl, fcp_of_ne_nil l' hl', ncVal_perm h, ndVal_perm h]

/-- C9 witness: the theorem applied to a concrete two-record list and its
swap. -/
theorem c9_perm_invariant_witness :
    rmse exConc = rmse exConcSwapped ∧ mae exConc = mae exConcSwapped
    ∧ fcp exConc = fcp exConcSwapped :=
  c9_perm_invariant exConc exConcSwapped (List.Perm.swap _ _ _)

end Surprise
